import Mathlib

/-!
Verification of the ingestion/indexing pipeline of the `ai-agent-rag`
repository (files `load_data.py` and `docx_loader.py`).

The development shallowly embeds the pipeline:
* `decRepr` — decimal rendering of natural numbers (Python `str` on a
  nonnegative integer), used by f-string interpolation in the source;
* `Chunk` — the metadata record of a chunk (`Document.metadata`), with
  `Option` fields modelling possibly-absent dictionary keys, read through
  `Option.getD` exactly as the source reads them through `dict.get`;
* `calculate_chunk_ids`, `save_to_chroma`, `clean_metadata` from
  `load_data.py`;
* `table_to_markdown`, `extract_docx_table`, the element-walking loop of
  `extract_content_from_docx` from `docx_loader.py`, and the per-file loop
  of `load_document`.

Python's `sorted` is a stable sort; it is embedded as the stable
`List.insertionSort` over a hand-rolled, fully computable code-point
comparison (`charsLtb`) that matches Python's string ordering.
-/

namespace RagPipeline

/-! ### Decimal rendering of naturals (Python `str(int)` for nonnegative values) -/

/-- The character of one decimal digit `d < 10`: code point `48 + d`. -/
def digitChar (d : Nat) : Char := Char.ofNat (48 + d)

/-- Decimal digit characters of `n`, most significant first.  The first
argument is recursion fuel; any fuel `> n` computes the true digit string. -/
def decAux : Nat → Nat → List Char
  | 0, _ => []
  | fuel + 1, n =>
      if n < 10 then [digitChar (n % 10)]
      else decAux fuel (n / 10) ++ [digitChar (n % 10)]

/-- Decimal rendering of a natural number. -/
def decRepr (n : Nat) : String := String.mk (decAux (n + 1) n)

theorem decAux_fuel_irrel : ∀ (f₁ f₂ n : Nat), n < f₁ → n < f₂ →
    decAux f₁ n = decAux f₂ n := by
  intro f₁
  induction f₁ with
  | zero => intro f₂ n h; omega
  | succ f ih =>
    intro f₂ n h₁ h₂
    match f₂, h₂ with
    | f₂' + 1, _ =>
      by_cases h10 : n < 10
      · simp [decAux, h10]
      · have hd : n / 10 < n := Nat.div_lt_self (by omega) (by omega)
        simp only [decAux, if_neg h10]
        rw [ih f₂' (n / 10) (by omega) (by omega)]

theorem decAux_mem (fuel : Nat) : ∀ (n : Nat), ∀ c ∈ decAux fuel n,
    ∃ d, d < 10 ∧ c = digitChar d := by
  induction fuel with
  | zero => intro n c hc; simp [decAux] at hc
  | succ f ih =>
    intro n c hc
    by_cases h10 : n < 10
    · simp [decAux, h10] at hc
      exact ⟨n % 10, by omega, hc⟩
    · simp only [decAux, if_neg h10, List.mem_append, List.mem_singleton] at hc
      rcases hc with hc | hc
      · exact ih (n / 10) c hc
      · exact ⟨n % 10, by omega, hc⟩

theorem digitChar_ne_colon (d : Nat) (h : d < 10) : digitChar d ≠ ':' := by
  interval_cases d <;> decide

theorem digitChar_inj (a b : Nat) (ha : a < 10) (hb : b < 10)
    (h : digitChar a = digitChar b) : a = b := by
  have key : ∀ x y : Fin 10, digitChar x.val = digitChar y.val → x = y := by decide
  have := key ⟨a, ha⟩ ⟨b, hb⟩ h
  exact congrArg Fin.val this

theorem decAux_ne_nil (fuel n : Nat) (h : n < fuel) : decAux fuel n ≠ [] := by
  match fuel, h with
  | f + 1, _ =>
    by_cases h10 : n < 10 <;> simp [decAux, h10]

theorem decAux_inj (n : Nat) : ∀ m, decAux (n + 1) n = decAux (m + 1) m → n = m := by
  induction n using Nat.strong_induction_on with
  | _ n ih =>
    intro m h
    by_cases hn : n < 10 <;> by_cases hm : m < 10
    · simp only [decAux, if_pos hn, if_pos hm, List.cons.injEq, and_true] at h
      have := digitChar_inj (n % 10) (m % 10) (by omega) (by omega) h
      omega
    · exfalso
      simp only [decAux, if_pos hn, if_neg hm] at h
      have hne := decAux_ne_nil m (m / 10) (Nat.div_lt_self (by omega) (by omega))
      have hlen := congrArg List.length h
      simp only [List.length_append, List.length_singleton] at hlen
      exact hne (List.length_eq_zero.mp (by omega))
    · exfalso
      simp only [decAux, if_neg hn, if_pos hm] at h
      have hne := decAux_ne_nil n (n / 10) (Nat.div_lt_self (by omega) (by omega))
      have hlen := congrArg List.length h
      simp only [List.length_append, List.length_singleton] at hlen
      exact hne (List.length_eq_zero.mp (by omega))
    · simp only [decAux, if_neg hn, if_neg hm] at h
      rw [decAux_fuel_irrel n (n / 10 + 1) (n / 10)
            (Nat.div_lt_self (by omega) (by omega)) (Nat.lt_succ_self _),
          decAux_fuel_irrel m (m / 10 + 1) (m / 10)
            (Nat.div_lt_self (by omega) (by omega)) (Nat.lt_succ_self _)] at h
      have h' := congrArg List.reverse h
      simp only [List.reverse_append, List.reverse_cons, List.reverse_nil,
        List.nil_append, List.singleton_append, List.cons.injEq] at h'
      obtain ⟨hdig, hrev⟩ := h'
      have hdiv : n / 10 = m / 10 :=
        ih (n / 10) (Nat.div_lt_self (by omega) (by omega)) (m / 10)
          (List.reverse_injective hrev)
      have hmod := digitChar_inj (n % 10) (m % 10) (by omega) (by omega) hdig
      omega

theorem decRepr_inj : Function.Injective decRepr := by
  intro n m h
  exact decAux_inj n m (congrArg String.data h)

theorem decRepr_ne_colon (n : Nat) : ∀ c ∈ (decRepr n).data, c ≠ ':' := by
  intro c hc
  obtain ⟨d, hd, rfl⟩ := decAux_mem (n + 1) n c hc
  exact digitChar_ne_colon d hd

/-! ### Chunk IDs: `<page_id>:chunk_<n>` and injectivity of that encoding -/

/-- The literal separator between a page identity and a chunk counter. -/
def sepChunk : String := ":chunk_"

/-- The full chunk id built from a page-identity string and a counter,
as in `chunk_id = f"{current_page_id}:chunk_{current_chunk_index}"`. -/
def encodeId (p : String) (n : Nat) : String := p ++ sepChunk ++ decRepr n

theorem sep_append_inj (a b d₁ d₂ : List Char)
    (h₁ : ∀ c ∈ d₁, c ≠ ':') (h₂ : ∀ c ∈ d₂, c ≠ ':')
    (h : a ++ sepChunk.data ++ d₁ = b ++ sepChunk.data ++ d₂) :
    a = b ∧ d₁ = d₂ := by
  have hcnt₁ : List.count ':' d₁ = 0 := List.count_eq_zero.mpr (fun hm => h₁ ':' hm rfl)
  have hcnt₂ : List.count ':' d₂ = 0 := List.count_eq_zero.mpr (fun hm => h₂ ':' hm rfl)
  have hsep : sepChunk.data = ':' :: ['c', 'h', 'u', 'n', 'k', '_'] := rfl
  rw [List.append_assoc, List.append_assoc] at h
  rcases List.append_eq_append_iff.mp h with ⟨u, hb, hrest⟩ | ⟨u, ha, hrest⟩
  · cases u with
    | nil =>
      simp only [List.append_nil] at hb
      subst hb
      refine ⟨rfl, ?_⟩
      rw [List.nil_append] at hrest
      exact List.append_cancel_left hrest
    | cons x u' =>
      exfalso
      have hx : x = ':' := by
        rw [hsep] at hrest
        exact (List.cons.injEq _ _ _ _ ▸ hrest).1.symm
      have hcount := congrArg (List.count ':') hrest
      rw [List.count_append, List.count_append, List.count_append] at hcount
      have hu : 0 < List.count ':' (x :: u') := by
        rw [hx]; exact List.count_pos_iff.mpr (List.mem_cons_self _ _)
      have hsepcnt : List.count ':' sepChunk.data = 1 := by decide
      omega
  · cases u with
    | nil =>
      simp only [List.append_nil] at ha
      subst ha
      refine ⟨rfl, ?_⟩
      rw [List.nil_append] at hrest
      exact (List.append_cancel_left hrest).symm
    | cons x u' =>
      exfalso
      have hx : x = ':' := by
        rw [hsep] at hrest
        exact (List.cons.injEq _ _ _ _ ▸ hrest).1.symm
      have hcount := congrArg (List.count ':') hrest
      rw [List.count_append, List.count_append, List.count_append] at hcount
      have hu : 0 < List.count ':' (x :: u') := by
        rw [hx]; exact List.count_pos_iff.mpr (List.mem_cons_self _ _)
      have hsepcnt : List.count ':' sepChunk.data = 1 := by decide
      omega

theorem encodeId_inj (p₁ : String) (n₁ : Nat) (p₂ : String) (n₂ : Nat)
    (h : encodeId p₁ n₁ = encodeId p₂ n₂) : p₁ = p₂ ∧ n₁ = n₂ := by
  have hd := congrArg String.data h
  simp only [encodeId, String.data_append] at hd
  obtain ⟨hp, hdig⟩ := sep_append_inj p₁.data p₂.data (decRepr n₁).data (decRepr n₂).data
    (decRepr_ne_colon n₁) (decRepr_ne_colon n₂) hd
  exact ⟨String.ext hp, decRepr_inj (String.ext hdig)⟩

/-! ### Code-point comparison of strings (Python string ordering) -/

theorem char_toNat_inj {a b : Char} (h : a.toNat = b.toNat) : a = b := by
  apply Char.eq_of_val_eq
  exact UInt32.eq_of_val_eq (Fin.ext h)

/-- Strict lexicographic order on character lists by code point. -/
def charsLtb : List Char → List Char → Bool
  | [], [] => false
  | [], _ :: _ => true
  | _ :: _, [] => false
  | a :: as, b :: bs => if a = b then charsLtb as bs else decide (a.toNat < b.toNat)

/-- Python's `<` on strings: lexicographic by code point. -/
def strLtb (s t : String) : Bool := charsLtb s.data t.data

theorem charsLtb_asymm : ∀ {x y : List Char},
    charsLtb x y = true → charsLtb y x = false := by
  intro x
  induction x with
  | nil =>
    intro y h
    cases y with
    | nil => simp [charsLtb] at h
    | cons b bs => simp [charsLtb]
  | cons a as ih =>
    intro y h
    cases y with
    | nil => simp [charsLtb] at h
    | cons b bs =>
      by_cases hab : a = b
      · subst hab
        simp only [charsLtb, if_pos rfl, ite_true, eq_self_iff_true] at h ⊢
        exact ih h
      · simp only [charsLtb, if_neg hab, decide_eq_true_eq] at h
        have hba : b ≠ a := fun hh => hab hh.symm
        simp only [charsLtb, if_neg hba, decide_eq_false_iff_not]
        omega

theorem charsLtb_tricho : ∀ {x y : List Char},
    charsLtb x y = false → charsLtb y x = false → x = y := by
  intro x
  induction x with
  | nil =>
    intro y h₁ _
    cases y with
    | nil => rfl
    | cons b bs => simp [charsLtb] at h₁
  | cons a as ih =>
    intro y h₁ h₂
    cases y with
    | nil => simp [charsLtb] at h₂
    | cons b bs =>
      by_cases hab : a = b
      · subst hab
        simp only [charsLtb, if_pos rfl, ite_true, eq_self_iff_true] at h₁ h₂
        rw [ih h₁ h₂]
      · exfalso
        have hba : b ≠ a := fun hh => hab hh.symm
        simp only [charsLtb, if_neg hab, decide_eq_false_iff_not] at h₁
        simp only [charsLtb, if_neg hba, decide_eq_false_iff_not] at h₂
        exact hab (char_toNat_inj (by omega))

theorem charsLtb_trans : ∀ {x y z : List Char},
    charsLtb x y = true → charsLtb y z = true → charsLtb x z = true := by
  intro x
  induction x with
  | nil =>
    intro y z h₁ h₂
    cases y with
    | nil => simp [charsLtb] at h₁
    | cons b bs =>
      cases z with
      | nil => simp [charsLtb] at h₂
      | cons c cs => simp [charsLtb]
  | cons a as ih =>
    intro y z h₁ h₂
    cases y with
    | nil => simp [charsLtb] at h₁
    | cons b bs =>
      cases z with
      | nil => simp [charsLtb] at h₂
      | cons c cs =>
        by_cases hab : a = b <;> by_cases hbc : b = c
        · subst hab; subst hbc
          simp only [charsLtb, if_pos rfl, ite_true, eq_self_iff_true] at h₁ h₂ ⊢
          exact ih h₁ h₂
        · subst hab
          simp only [charsLtb, if_neg hbc] at h₂ ⊢
          exact h₂
        · subst hbc
          simp only [charsLtb, if_neg hab] at h₁ ⊢
          exact h₁
        · simp only [charsLtb, if_neg hab, decide_eq_true_eq] at h₁
          simp only [charsLtb, if_neg hbc, decide_eq_true_eq] at h₂
          have hac : a ≠ c := by
            intro hh
            subst hh
            omega
          simp only [charsLtb, if_neg hac, decide_eq_true_eq]
          omega

theorem strLtb_asymm {s t : String} (h : strLtb s t = true) : strLtb t s = false :=
  charsLtb_asymm h

theorem strLtb_tricho {s t : String} (h₁ : strLtb s t = false)
    (h₂ : strLtb t s = false) : s = t :=
  String.ext (charsLtb_tricho h₁ h₂)

theorem strLtb_trans {s t u : String} (h₁ : strLtb s t = true)
    (h₂ : strLtb t u = true) : strLtb s u = true :=
  charsLtb_trans h₁ h₂

/-- Python's `<` on `None`-or-string values as they occur in the sort key of
`save_to_chroma` (on the inputs where Python does not raise, either all
values are `None` or none is; `none` is placed below every string so the
order is total). -/
def optStrLtb : Option String → Option String → Bool
  | Option.none, Option.none => false
  | Option.none, some _ => true
  | some _, Option.none => false
  | some a, some b => strLtb a b

theorem optStrLtb_asymm : ∀ {x y : Option String},
    optStrLtb x y = true → optStrLtb y x = false := by
  intro x y h
  match x, y with
  | Option.none, Option.none => simp [optStrLtb] at h
  | Option.none, some b => simp [optStrLtb]
  | some a, Option.none => simp [optStrLtb] at h
  | some a, some b => exact strLtb_asymm h

theorem optStrLtb_tricho : ∀ {x y : Option String},
    optStrLtb x y = false → optStrLtb y x = false → x = y := by
  intro x y h₁ h₂
  match x, y with
  | Option.none, Option.none => rfl
  | Option.none, some b => simp [optStrLtb] at h₁
  | some a, Option.none => simp [optStrLtb] at h₂
  | some a, some b => rw [strLtb_tricho h₁ h₂]

theorem optStrLtb_trans : ∀ {x y z : Option String},
    optStrLtb x y = true → optStrLtb y z = true → optStrLtb x z = true := by
  intro x y z h₁ h₂
  match x, y, z with
  | _, Option.none, Option.none => simp [optStrLtb] at h₂
  | some a, Option.none, some c => simp [optStrLtb] at h₁
  | Option.none, Option.none, some c => simp [optStrLtb]
  | _, some b, Option.none => simp [optStrLtb] at h₂
  | Option.none, some b, some c => simp [optStrLtb]
  | some a, some b, some c => exact strLtb_trans h₁ h₂

/-! ### Chunk metadata and the deterministic ID assigner (`load_data.py`) -/

/-- The metadata record of a chunk, as read by `calculate_chunk_ids` and
`save_to_chroma`.  `Option` fields model possibly-absent dictionary keys: a
`dict.get(key, default)` in the source becomes `Option.getD` here. -/
structure Chunk where
  source : Option String
  page : Option Nat
  has_table : Option Bool
  used_ocr : Option Bool
  file_type : Option String
  start : Option Nat
deriving DecidableEq

/-- `current_page_id = f"{source}:{file_type}:page_{page}{table_suffix}{ocr_suffix}"`
with the defaults of lines 212-216 of `load_data.py`. -/
def pageId (c : Chunk) : String :=
  c.source.getD "UNKNOWN_SOURCE" ++ ":" ++ c.file_type.getD "unknown" ++ ":page_" ++
    decRepr (c.page.getD 0) ++ (if c.has_table.getD false then "_table" else "") ++
    (if c.used_ocr.getD false then "_ocr" else "")

/-- The loop of `calculate_chunk_ids`: running state is the previous
page-identity string (`last_page_id`, `none` initially) and the counter
(`current_chunk_index`).  Each chunk is paired with its assigned id. -/
def assignAux : Option String → Nat → List Chunk → List (Chunk × String)
  | _, _, [] => []
  | last_page_id, idx, c :: rest =>
      let current_page_id := pageId c
      let idx' := if some current_page_id = last_page_id then idx + 1 else 0
      (c, encodeId current_page_id idx') :: assignAux (some current_page_id) idx' rest

/-- `calculate_chunk_ids` (`load_data.py`, lines 206-231): pairs every chunk
with the id written into `chunk.metadata["id"]`. -/
def calculate_chunk_ids (chunks : List Chunk) : List (Chunk × String) :=
  assignAux Option.none 0 chunks

/-- The sequence of assigned ids. -/
def chunkIds (chunks : List Chunk) : List String :=
  (calculate_chunk_ids chunks).map Prod.snd

/-- The (page-identity, counter) pairs underlying the assigned ids; the ids
are exactly `encodeId` of these pairs (`assignAux_snd`). -/
def idPairsAux : Option String → Nat → List Chunk → List (String × Nat)
  | _, _, [] => []
  | last, idx, c :: rest =>
      let pid := pageId c
      let idx' := if some pid = last then idx + 1 else 0
      (pid, idx') :: idPairsAux (some pid) idx' rest

def idPairs (chunks : List Chunk) : List (String × Nat) :=
  idPairsAux Option.none 0 chunks

theorem assignAux_snd : ∀ (l : List Chunk) (last : Option String) (idx : Nat),
    (assignAux last idx l).map Prod.snd
      = (idPairsAux last idx l).map (fun p => encodeId p.1 p.2) := by
  intro l
  induction l with
  | nil => intro last idx; rfl
  | cons c rest ih =>
    intro last idx
    simp only [assignAux, idPairsAux, List.map_cons]
    exact congrArg _ (ih _ _)

theorem chunkIds_eq_encode (chunks : List Chunk) :
    chunkIds chunks = (idPairs chunks).map (fun p => encodeId p.1 p.2) :=
  assignAux_snd chunks Option.none 0

theorem idPairsAux_fst : ∀ (l : List Chunk) (last : Option String) (idx : Nat),
    (idPairsAux last idx l).map Prod.fst = l.map pageId := by
  intro l
  induction l with
  | nil => intro last idx; rfl
  | cons c rest ih =>
    intro last idx
    simp only [idPairsAux, List.map_cons]
    exact congrArg _ (ih _ _)

theorem idPairsAux_length (l : List Chunk) (last : Option String) (idx : Nat) :
    (idPairsAux last idx l).length = l.length := by
  have := congrArg List.length (idPairsAux_fst l last idx)
  simpa using this

/-! ### The sort key of `save_to_chroma` (lines 144-153 of `load_data.py`) -/

/-- The Python sort key
`(source, int(page, default 0), bool(has_table, default False), int(start) if present else 0)`;
the source may be absent (`None`). -/
def chunkSortKey (c : Chunk) : Option String × Nat × Bool × Nat :=
  (c.source, c.page.getD 0, c.has_table.getD false, c.start.getD 0)

/-- Lexicographic comparison of sort keys, as Python compares the tuples. -/
def codeKeyLeb : Option String × Nat × Bool × Nat → Option String × Nat × Bool × Nat → Bool
  | (s₁, p₁, t₁, o₁), (s₂, p₂, t₂, o₂) =>
    if s₁ = s₂ then
      if p₁ = p₂ then
        if t₁ = t₂ then decide (o₁ ≤ o₂)
        else !t₁ && t₂
      else decide (p₁ < p₂)
    else optStrLtb s₁ s₂

theorem codeKeyLeb_total (k₁ k₂ : Option String × Nat × Bool × Nat) :
    codeKeyLeb k₁ k₂ = true ∨ codeKeyLeb k₂ k₁ = true := by
  obtain ⟨s₁, p₁, t₁, o₁⟩ := k₁
  obtain ⟨s₂, p₂, t₂, o₂⟩ := k₂
  by_cases hs : s₁ = s₂
  · subst hs
    by_cases hp : p₁ = p₂
    · subst hp
      by_cases ht : t₁ = t₂
      · subst ht
        simp only [codeKeyLeb, if_pos rfl, ite_true, eq_self_iff_true, decide_eq_true_eq]
        omega
      · have ht' : t₂ ≠ t₁ := fun hh => ht hh.symm
        simp only [codeKeyLeb, if_pos rfl, ite_true, eq_self_iff_true, if_neg ht, if_neg ht']
        cases t₁ <;> cases t₂ <;> simp_all
    · have hp' : p₂ ≠ p₁ := fun hh => hp hh.symm
      simp only [codeKeyLeb, if_pos rfl, ite_true, eq_self_iff_true, if_neg hp, if_neg hp', decide_eq_true_eq]
      omega
  · have hs' : s₂ ≠ s₁ := fun hh => hs hh.symm
    simp only [codeKeyLeb, if_neg hs, if_neg hs']
    rcases Bool.eq_false_or_eq_true (optStrLtb s₁ s₂) with h | h
    · left; exact h
    · rcases Bool.eq_false_or_eq_true (optStrLtb s₂ s₁) with h' | h'
      · right; exact h'
      · exact absurd (optStrLtb_tricho h h') hs

theorem codeKeyLeb_antisymm {k₁ k₂ : Option String × Nat × Bool × Nat}
    (h₁ : codeKeyLeb k₁ k₂ = true) (h₂ : codeKeyLeb k₂ k₁ = true) : k₁ = k₂ := by
  obtain ⟨s₁, p₁, t₁, o₁⟩ := k₁
  obtain ⟨s₂, p₂, t₂, o₂⟩ := k₂
  by_cases hs : s₁ = s₂
  · subst hs
    by_cases hp : p₁ = p₂
    · subst hp
      by_cases ht : t₁ = t₂
      · subst ht
        simp only [codeKeyLeb, if_pos rfl, ite_true, eq_self_iff_true, decide_eq_true_eq] at h₁ h₂
        have : o₁ = o₂ := by omega
        rw [this]
      · have ht' : t₂ ≠ t₁ := fun hh => ht hh.symm
        simp only [codeKeyLeb, if_pos rfl, ite_true, eq_self_iff_true, if_neg ht, if_neg ht'] at h₁ h₂
        cases t₁ <;> cases t₂ <;> simp_all
    · have hp' : p₂ ≠ p₁ := fun hh => hp hh.symm
      simp only [codeKeyLeb, if_pos rfl, ite_true, eq_self_iff_true, if_neg hp, if_neg hp', decide_eq_true_eq] at h₁ h₂
      omega
  · exfalso
    have hs' : s₂ ≠ s₁ := fun hh => hs hh.symm
    simp only [codeKeyLeb, if_neg hs, if_neg hs'] at h₁ h₂
    rw [optStrLtb_asymm h₁] at h₂
    exact Bool.false_ne_true h₂

theorem codeKeyLeb_trans {k₁ k₂ k₃ : Option String × Nat × Bool × Nat}
    (h₁ : codeKeyLeb k₁ k₂ = true) (h₂ : codeKeyLeb k₂ k₃ = true) :
    codeKeyLeb k₁ k₃ = true := by
  obtain ⟨s₁, p₁, t₁, o₁⟩ := k₁
  obtain ⟨s₂, p₂, t₂, o₂⟩ := k₂
  obtain ⟨s₃, p₃, t₃, o₃⟩ := k₃
  by_cases hs₁ : s₁ = s₂ <;> by_cases hs₂ : s₂ = s₃
  · subst hs₁; subst hs₂
    simp only [codeKeyLeb, if_pos rfl, ite_true, eq_self_iff_true] at h₁ h₂ ⊢
    by_cases hp₁ : p₁ = p₂ <;> by_cases hp₂ : p₂ = p₃
    · subst hp₁; subst hp₂
      simp only [if_pos rfl, ite_true, eq_self_iff_true] at h₁ h₂ ⊢
      by_cases ht₁ : t₁ = t₂ <;> by_cases ht₂ : t₂ = t₃
      · subst ht₁; subst ht₂
        simp only [if_pos rfl, ite_true, eq_self_iff_true, decide_eq_true_eq] at h₁ h₂ ⊢
        omega
      · subst ht₁
        simp only [if_neg ht₂] at h₂ ⊢
        exact h₂
      · subst ht₂
        simp only [if_neg ht₁] at h₁ ⊢
        exact h₁
      · simp only [if_neg ht₁] at h₁
        simp only [if_neg ht₂] at h₂
        cases t₁ <;> cases t₂ <;> cases t₃ <;> simp_all
    · subst hp₁
      simp only [if_neg hp₂] at h₂ ⊢
      exact h₂
    · subst hp₂
      simp only [if_neg hp₁] at h₁ ⊢
      exact h₁
    · simp only [if_neg hp₁, decide_eq_true_eq] at h₁
      simp only [if_neg hp₂, decide_eq_true_eq] at h₂
      have hp₃ : p₁ ≠ p₃ := by omega
      simp only [if_neg hp₃, decide_eq_true_eq]
      omega
  · rw [show ((s₁, p₁, t₁, o₁) : Option String × Nat × Bool × Nat)
        = (s₂, p₁, t₁, o₁) from by rw [hs₁]]
    simp only [codeKeyLeb, if_neg hs₂] at h₂ ⊢
    exact h₂
  · subst hs₂
    simp only [codeKeyLeb, if_neg hs₁] at h₁ ⊢
    exact h₁
  · simp only [codeKeyLeb, if_neg hs₁] at h₁
    simp only [codeKeyLeb, if_neg hs₂] at h₂
    have hlt := optStrLtb_trans h₁ h₂
    have hs₃ : s₁ ≠ s₃ := by
      intro hh
      subst hh
      rw [optStrLtb_asymm h₁] at h₂
      exact Bool.false_ne_true h₂
    simp only [codeKeyLeb, if_neg hs₃]
    exact hlt

/-- The sort relation `save_to_chroma` sorts by. -/
def chunkLe (a b : Chunk) : Prop :=
  codeKeyLeb (chunkSortKey a) (chunkSortKey b) = true

instance : DecidableRel chunkLe := fun a b =>
  inferInstanceAs (Decidable (codeKeyLeb (chunkSortKey a) (chunkSortKey b) = true))

/-- Python's `sorted(chunks, key=...)`: a stable sort; embedded as the stable
`List.insertionSort` over the same key order. -/
def sortChunks (chunks : List Chunk) : List Chunk :=
  List.insertionSort chunkLe chunks

/-! ### Uniqueness of assigned IDs for grouped inputs -/

/-- The input is a sequence of runs: each run starts at a chunk `c`, continues
with chunks of the same page-identity string, and no later chunk ever has that
page identity again.  Equivalently: chunks with equal page-identity strings are
contiguous. -/
inductive GroupedRuns : List Chunk → Prop
  | nil : GroupedRuns []
  | run (c : Chunk) (same rest : List Chunk)
      (hsame : ∀ d ∈ same, pageId d = pageId c)
      (hrest : ∀ d ∈ rest, pageId d ≠ pageId c)
      (htail : GroupedRuns rest) :
      GroupedRuns (c :: (same ++ rest))

theorem idPairsAux_run : ∀ (same : List Chunk) (p : String) (idx : Nat)
    (rest : List Chunk), (∀ d ∈ same, pageId d = p) →
    idPairsAux (some p) idx (same ++ rest)
      = (List.range same.length).map (fun k => (p, idx + k + 1))
        ++ idPairsAux (some p) (idx + same.length) rest := by
  intro same
  induction same with
  | nil =>
    intro p idx rest _
    simp
  | cons d same' ih =>
    intro p idx rest hsame
    have hd : pageId d = p := hsame d (List.mem_cons_self _ _)
    have hrec := ih p (idx + 1) rest (fun e he => hsame e (List.mem_cons_of_mem _ he))
    simp only [List.cons_append, idPairsAux, hd, if_pos rfl, ite_true, eq_self_iff_true,
      List.append_eq]
    rw [hrec]
    simp only [List.length_cons, List.range_succ_eq_map, List.map_cons, List.map_map]
    refine congrArg₂ _ (by rw [Nat.add_zero]) (congrArg₂ _ ?_ ?_)
    · apply List.map_congr_left
      intro k _
      simp only [Function.comp_apply, Prod.mk.injEq, true_and]
      omega
    · congr 1
      omega

theorem idPairsAux_reset : ∀ (l : List Chunk) (p : String) (idx : Nat),
    (∀ d, l.head? = some d → pageId d ≠ p) →
    idPairsAux (some p) idx l = idPairsAux Option.none 0 l := by
  intro l p idx h
  cases l with
  | nil => rfl
  | cons c rest =>
    have hc : pageId c ≠ p := h c rfl
    simp [idPairsAux, hc]

theorem idPairs_nodup_of_grouped (l : List Chunk) (h : GroupedRuns l) :
    (idPairs l).Nodup := by
  induction h with
  | nil => exact List.nodup_nil
  | run c same rest hsame hrest htail ih =>
    have hstep : idPairs (c :: (same ++ rest))
        = (pageId c, 0) :: idPairsAux (some (pageId c)) 0 (same ++ rest) := by
      simp [idPairs, idPairsAux]
    rw [hstep, idPairsAux_run same (pageId c) 0 rest hsame,
        idPairsAux_reset rest (pageId c) (0 + same.length)
          (fun d hd => hrest d (List.mem_of_mem_head? hd))]
    have hA : ((List.range same.length).map
        (fun k => (pageId c, 0 + k + 1))).Nodup := by
      refine List.Nodup.map ?_ (List.nodup_range _)
      intro k₁ k₂ hk
      simp only [Prod.mk.injEq, true_and] at hk
      omega
    have hBfst : ∀ x ∈ idPairs rest, x.1 ≠ pageId c := by
      intro x hx
      have hmem : x.1 ∈ (idPairsAux Option.none 0 rest).map Prod.fst :=
        List.mem_map_of_mem Prod.fst hx
      rw [idPairsAux_fst] at hmem
      obtain ⟨d, hd, hpd⟩ := List.mem_map.mp hmem
      rw [← hpd]
      exact hrest d hd
    refine List.nodup_cons.mpr ⟨?_, List.Nodup.append hA ih ?_⟩
    · intro hmem
      rcases List.mem_append.mp hmem with hmem | hmem
      · obtain ⟨k, _, hk⟩ := List.mem_map.mp hmem
        simp only [Prod.mk.injEq] at hk
        omega
      · exact hBfst _ hmem rfl
    · intro x hxA hxB
      obtain ⟨k, _, hk⟩ := List.mem_map.mp hxA
      exact hBfst x hxB (by rw [← hk])

/-- IDs assigned by `calculate_chunk_ids` are pairwise distinct whenever chunks
with equal page-identity strings are contiguous in the input. -/
theorem chunkIds_nodup_of_grouped (l : List Chunk) (h : GroupedRuns l) :
    (chunkIds l).Nodup := by
  rw [chunkIds_eq_encode]
  refine List.Nodup.map ?_ (idPairs_nodup_of_grouped l h)
  intro p₁ p₂ hp
  obtain ⟨h1, h2⟩ := encodeId_inj p₁.1 p₁.2 p₂.1 p₂.2 hp
  exact Prod.ext h1 h2

/-! ### The claimed sort precondition (spec §4.4): key
`(source, page, has_table, start_offset)`, absent values as zero -/

/-- The claim's sort key, with absent values read as the type's zero value. -/
def specChunkKey (c : Chunk) : String × Nat × Bool × Nat :=
  (c.source.getD "", c.page.getD 0, c.has_table.getD false, c.start.getD 0)

/-- Lexicographic comparison of the claim's sort keys. -/
def specKeyLeb : String × Nat × Bool × Nat → String × Nat × Bool × Nat → Bool
  | (s₁, p₁, t₁, o₁), (s₂, p₂, t₂, o₂) =>
    if s₁ = s₂ then
      if p₁ = p₂ then
        if t₁ = t₂ then decide (o₁ ≤ o₂)
        else !t₁ && t₂
      else decide (p₁ < p₂)
    else strLtb s₁ s₂

def sortedBySpecKeyb : List Chunk → Bool
  | [] => true
  | [_] => true
  | a :: b :: rest =>
      specKeyLeb (specChunkKey a) (specChunkKey b) && sortedBySpecKeyb (b :: rest)

/-- "Sorted ascending by the key `(source, page, has_table, start_offset)`,
absent values treated as their type's zero value". -/
def SortedBySpecKey (l : List Chunk) : Prop := sortedBySpecKeyb l = true

instance (l : List Chunk) : Decidable (SortedBySpecKey l) :=
  inferInstanceAs (Decidable (sortedBySpecKeyb l = true))

/-- The tuple the uniqueness claim requires to be distinct per chunk. -/
def idTuple (c : Chunk) :
    Option String × Option Nat × Option Bool × Option Bool × Option Nat :=
  (c.source, c.page, c.has_table, c.used_ocr, c.start)

/-! ### The incremental store writer `save_to_chroma` (lines 127-204) -/

/-- The persisted index, abstracted to its ID set in insertion order (the
vector store collaborator: `db.get()["ids"]`, `add_documents(…, ids=…)`). -/
structure ChromaDB where
  ids : List String
deriving DecidableEq

/-- `save_to_chroma` from the sort at line 144 on: sort, assign ids, then
either create the index with all chunks, or diff against the existing ID set
and insert only the missing ones.  A `Chunk` holds the metadata values as
they stand when the sort key reads them: the metadata-cleaning prelude
(lines 131-135) keeps every key the ID assigner reads with primitive values
unchanged and drops `start` (not in `keep_keys`), so in the full pipeline
the sort's `start` component reads as absent here — taking the
metadata state as input covers that case (`start = none`) and every other.
The re-cleaning of `new_chunks` at line 177 keeps the `id` key and is
unobservable in this ID-level model.  The second component records the
insert call: `none` when no insert call is made (the
`"No new documents to add"` branch), otherwise the inserted chunks. -/
def save_to_chroma (dbOpt : Option ChromaDB) (chunks : List Chunk) :
    ChromaDB × Option (List (Chunk × String)) :=
  let chunks_sorted := sortChunks chunks
  let chunks_with_ids := calculate_chunk_ids chunks_sorted
  match dbOpt with
  | some db =>
      let existing_ids := db.ids
      let new_chunks := chunks_with_ids.filter (fun p => !(existing_ids.contains p.2))
      if new_chunks.isEmpty then (db, Option.none)
      else ({ ids := db.ids ++ new_chunks.map Prod.snd }, some new_chunks)
  | Option.none => ({ ids := chunks_with_ids.map Prod.snd }, some chunks_with_ids)

/-- The IDs `save_to_chroma` assigns (and persists on a fresh index). -/
def assignedIds (chunks : List Chunk) : List String :=
  ((save_to_chroma Option.none chunks).1).ids

/-! ### Equality of stable sorts of permuted inputs with distinct keys -/

theorem sorted_perm_eq_of_nodup_keys :
    ∀ (l₁ l₂ : List Chunk), l₁.Perm l₂ →
    l₁.Sorted chunkLe → l₂.Sorted chunkLe →
    (l₁.map chunkSortKey).Nodup → l₁ = l₂ := by
  intro l₁
  induction l₁ with
  | nil =>
    intro l₂ hperm _ _ _
    exact List.Perm.nil_eq hperm
  | cons a t₁ ih =>
    intro l₂ hperm hs₁ hs₂ hnd
    cases l₂ with
    | nil => exact absurd (List.Perm.nil_eq hperm.symm).symm (List.cons_ne_nil a t₁)
    | cons b t₂ =>
      have hab : a = b := by
        by_cases hres : a = b
        · exact hres
        · exfalso
          have hbmem : b ∈ a :: t₁ := hperm.symm.subset (List.mem_cons_self b t₂)
          have hamem : a ∈ b :: t₂ := hperm.subset (List.mem_cons_self a t₁)
          have hb₁ : b ∈ t₁ := by
            rcases List.mem_cons.mp hbmem with h | h
            · exact absurd h.symm hres
            · exact h
          have ha₂ : a ∈ t₂ := by
            rcases List.mem_cons.mp hamem with h | h
            · exact absurd h hres
            · exact h
          have hler : chunkLe a b := (List.sorted_cons.mp hs₁).1 b hb₁
          have hlel : chunkLe b a := (List.sorted_cons.mp hs₂).1 a ha₂
          have hkey : chunkSortKey a = chunkSortKey b := codeKeyLeb_antisymm hler hlel
          have : chunkSortKey a ∈ t₁.map chunkSortKey := by
            rw [hkey]
            exact List.mem_map_of_mem chunkSortKey hb₁
          exact (List.nodup_cons.mp hnd).1 this
      subst hab
      have htperm : t₁.Perm t₂ := hperm.cons_inv
      have := ih t₂ htperm (List.sorted_cons.mp hs₁).2 (List.sorted_cons.mp hs₂).2
        (List.nodup_cons.mp hnd).2
      rw [this]

theorem sortChunks_sorted (l : List Chunk) : (sortChunks l).Sorted chunkLe :=
  @List.sorted_insertionSort Chunk chunkLe _
    ⟨fun a b => codeKeyLeb_total (chunkSortKey a) (chunkSortKey b)⟩
    ⟨fun _ _ _ => codeKeyLeb_trans⟩ l

theorem sortChunks_perm (l : List Chunk) : (sortChunks l).Perm l :=
  List.perm_insertionSort chunkLe l

/-! ### The metadata normalizer `clean_metadata` (lines 17-32 of `load_data.py`) -/

/-- Python `str(n)` on an integer. -/
def intRepr : Int → String
  | Int.ofNat n => decRepr n
  | Int.negSucc n => "-" ++ decRepr (n + 1)

/-- A Python value as it can occur in chunk metadata: one of the allowed
primitive types `str`, `int`, `float`, `bool`, `NoneType`, or any other
object.  A float or other object carries its `str()` form. -/
inductive PyValue
  | str (s : String)
  | int (n : Int)
  | float (printed : String)
  | bool (b : Bool)
  | none
  | other (printed : String)
deriving DecidableEq

/-- `isinstance(value, (str, int, float, bool, type(None)))`. -/
def isAllowedType : PyValue → Bool
  | .str _ => true
  | .int _ => true
  | .float _ => true
  | .bool _ => true
  | .none => true
  | .other _ => false

/-- Python `str(value)`. -/
def pyStrOf : PyValue → String
  | .str s => s
  | .int n => intRepr n
  | .float printed => printed
  | .bool b => if b then "True" else "False"
  | .none => "None"
  | .other printed => printed

def keep_keys : List String :=
  ["source", "page", "type", "id", "total_pages", "has_table", "used_ocr", "file_type"]

/-- `clean_metadata`: for each kept key present in the input mapping, keep the
value if its type is allowed, else (when it is not `None`) store `str(value)`. -/
def clean_metadata (metadata : String → Option PyValue) : List (String × PyValue) :=
  keep_keys.foldl
    (fun cleaned key =>
      match metadata key with
      | Option.none => cleaned
      | some value =>
          if isAllowedType value then cleaned ++ [(key, value)]
          else if value ≠ PyValue.none then cleaned ++ [(key, PyValue.str (pyStrOf value))]
          else cleaned)
    []

/-- The value `clean_metadata` stores for one present input value. -/
def cleanedVal (v : PyValue) : Option PyValue :=
  if isAllowedType v then some v
  else if v ≠ PyValue.none then some (PyValue.str (pyStrOf v))
  else Option.none

theorem isAllowedType_false_ne_none {v : PyValue} (h : isAllowedType v = false) :
    v ≠ PyValue.none := by
  cases v <;> simp_all [isAllowedType]

theorem clean_metadata_eq_filterMap (metadata : String → Option PyValue) :
    clean_metadata metadata
      = keep_keys.filterMap
          (fun key => ((metadata key).bind cleanedVal).map (fun v => (key, v))) := by
  have main : ∀ (ks : List String) (acc : List (String × PyValue)),
      ks.foldl
        (fun cleaned key =>
          match metadata key with
          | Option.none => cleaned
          | some value =>
              if isAllowedType value then cleaned ++ [(key, value)]
              else if value ≠ PyValue.none then
                cleaned ++ [(key, PyValue.str (pyStrOf value))]
              else cleaned)
        acc
      = acc ++ ks.filterMap
          (fun key => ((metadata key).bind cleanedVal).map (fun v => (key, v))) := by
    intro ks
    induction ks with
    | nil => intro acc; simp
    | cons k ks' ih =>
      intro acc
      rw [List.foldl_cons, List.filterMap_cons, ih]
      cases hk : metadata k with
      | none => simp [hk]
      | some v =>
        by_cases hall : isAllowedType v
        · simp [hk, cleanedVal, hall]
        · have hne : v ≠ PyValue.none :=
            isAllowedType_false_ne_none (Bool.eq_false_iff.mpr hall)
          simp [hk, cleanedVal, hall, hne]
  exact main keep_keys []

theorem lookup_filterMap_keyed (g : String → Option PyValue) :
    ∀ (ks : List String), ks.Nodup → ∀ (k : String),
    (ks.filterMap (fun key => (g key).map (fun v => (key, v)))).lookup k
      = if k ∈ ks then g k else Option.none := by
  intro ks
  induction ks with
  | nil => intro _ k; simp
  | cons a ks' ih =>
    intro hnd k
    obtain ⟨hna, hnd'⟩ := List.nodup_cons.mp hnd
    rw [List.filterMap_cons]
    by_cases hka : k = a
    · subst hka
      cases hga : g k with
      | none =>
        simp only [Option.map_none', ih hnd' k, if_neg hna,
          if_pos (List.mem_cons_self k ks'), hga]
      | some v =>
        simp only [Option.map_some', hga]
        rw [List.lookup_cons_self, if_pos (List.mem_cons_self k ks')]
    · have hbeq : (k == a) = false := by simp [hka]
      have hmem : (k ∈ a :: ks') ↔ (k ∈ ks') := by simp [hka]
      cases hga : g a with
      | none =>
        rw [Option.map_none', ih hnd' k]
        by_cases hm : k ∈ ks'
        · rw [if_pos hm, if_pos (List.mem_cons_of_mem _ hm)]
        · rw [if_neg hm, if_neg (fun hh => hm (hmem.mp hh))]
      | some v =>
        rw [Option.map_some']
        have hstep : List.lookup k ((a, v)
            :: ks'.filterMap (fun key => (g key).map (fun w => (key, w))))
            = List.lookup k (ks'.filterMap (fun key => (g key).map (fun w => (key, w)))) := by
          simp [List.lookup, hbeq]
        rw [hstep, ih hnd' k]
        by_cases hm : k ∈ ks'
        · rw [if_pos hm, if_pos (List.mem_cons_of_mem _ hm)]
        · rw [if_neg hm, if_neg (fun hh => hm (hmem.mp hh))]

theorem keep_keys_nodup : keep_keys.Nodup := by decide

/-! ### Table-to-markdown (`docx_loader.py`, lines 10-25) -/

/-- A table cell value as Python sees it (string, integer, boolean or
`None`); `table_to_markdown` accepts arbitrary cell values. -/
inductive Cell
  | str (s : String)
  | int (n : Int)
  | bool (b : Bool)
  | none
deriving DecidableEq

/-- Python truthiness of a cell, as tested by `str(cell) if cell else ""`. -/
def cellTruthy : Cell → Bool
  | .str s => decide (s ≠ "")
  | .int n => decide (n ≠ 0)
  | .bool b => b
  | .none => false

/-- Python `str(cell)`. -/
def pyCellStr : Cell → String
  | .str s => s
  | .int n => intRepr n
  | .bool b => if b then "True" else "False"
  | .none => "None"

/-- `str(cell) if cell else ""`. -/
def renderCell (c : Cell) : String := if cellTruthy c then pyCellStr c else ""

/-- `"| " + " | ".join(...) + " |"`. -/
def renderRow (cells : List Cell) : String :=
  "| " ++ String.intercalate " | " (cells.map renderCell) ++ " |"

/-- `"| " + " | ".join(["---"] * len(headers)) + " |"`. -/
def separatorRow (n : Nat) : String :=
  "| " ++ String.intercalate " | " (List.replicate n "---") ++ " |"

/-- `padded_row = row + [""] * (len(headers) - len(row))`, then
`padded_row[:len(headers)]`. -/
def paddedRow (headers row : List Cell) : List Cell :=
  (row ++ List.replicate (headers.length - row.length) (Cell.str "")).take headers.length

/-- `table_to_markdown` (lines 10-25): empty output for fewer than two rows,
otherwise a header line, a separator line of dashes, and one line per data
row, joined by newlines. -/
def table_to_markdown : List (List Cell) → String
  | [] => ""
  | headers :: rows =>
      if rows.isEmpty then ""
      else String.intercalate "\n"
        (renderRow headers :: separatorRow headers.length
          :: rows.map (fun row => renderRow (paddedRow headers row)))

/-- `extract_docx_table` (lines 27-40): strip every cell's text, then convert
when at least two rows exist.  (The `except` branch, which also returns `""`,
is unreachable in this embedding since cell-text access is total.) -/
def extract_docx_table (table : List (List String)) : String :=
  let table_data := table.map (fun row => row.map (fun cell => Cell.str cell.trim))
  if 2 ≤ table_data.length then table_to_markdown table_data else ""

/-! ### The DOCX structured extractor (`docx_loader.py`, lines 42-129) -/

/-- A body element of a DOCX document: a paragraph (`CT_P`) with its text, or
a table (`CT_Tbl`) with its grid of cell texts. -/
inductive DocxElement
  | para (text : String)
  | tbl (table : List (List String))

/-- One entry of `content_parts`; `sectionIdx` embeds the `'section'` key
(`section` is a reserved word in Lean). -/
structure ContentPart where
  type : String
  content : String
  sectionIdx : Nat
deriving DecidableEq

/-- The loop state of `extract_content_from_docx`. -/
structure ExtractState where
  content_parts : List ContentPart
  current_section : List String
  section_num : Nat
  table_count : Nat
deriving DecidableEq

/-- The "save accumulated text" block (lines 71-80, also the final block at
lines 94-101, whose extra counter bump and reset are unobservable). -/
def flushText (s : ExtractState) : ExtractState :=
  if s.current_section.isEmpty then s
  else if String.intercalate "\n\n" s.current_section ≠ "" then
    { s with
        content_parts := s.content_parts ++
          [⟨"text", String.intercalate "\n\n" s.current_section, s.section_num⟩],
        section_num := s.section_num + 1,
        current_section := [] }
  else { s with current_section := [] }

/-- One iteration of the element loop (lines 59-91). -/
def stepElement (s : ExtractState) : DocxElement → ExtractState
  | .para text =>
      let t := text.trim
      if t ≠ "" then { s with current_section := s.current_section ++ [t] } else s
  | .tbl table =>
      let s' := flushText s
      let markdown_table := extract_docx_table table
      if markdown_table ≠ "" then
        { s' with
            table_count := s'.table_count + 1,
            content_parts := s'.content_parts ++
              [⟨"table",
                "\n**Bảng " ++ decRepr (s'.table_count + 1) ++ ":**\n"
                  ++ markdown_table ++ "\n",
                s'.section_num⟩],
            section_num := s'.section_num + 1 }
      else s'

/-- The per-section `Document` produced at lines 106-120. -/
structure SectionDoc where
  page_content : String
  source : String
  page : Nat
  total_pages : Nat
  type : String
  has_table : Bool
  file_type : String
deriving DecidableEq

/-- `extract_content_from_docx`: parsing happens inside a `try`; a parse
failure (`none`) hits the `except` branch and yields `[]`.  On success the
body elements are folded through the loop, remaining text is flushed, and each
content part becomes a `SectionDoc`. -/
def extract_content_from_docx (parsed : Option (List DocxElement))
    (filename : String) : List SectionDoc :=
  match parsed with
  | Option.none => []
  | some elems =>
      let final := flushText (elems.foldl stepElement ⟨[], [], 0, 0⟩)
      let total_sections := final.content_parts.length
      final.content_parts.enum.map (fun ip =>
        let has_table := ip.2.type == "table"
        { page_content := ip.2.content
          source := filename
          page := ip.1
          total_pages := total_sections
          type := if has_table then "docx_table" else "docx_text"
          has_table := has_table
          file_type := "docx" })

/-- The per-file loop of `load_document` (`load_data.py`, lines 53-63): extract
each file, skip files yielding no documents (`continue`), extend otherwise. -/
def load_document (extractOf : String → List SectionDoc)
    (docx_files : List String) : List SectionDoc :=
  docx_files.foldl
    (fun documents filename =>
      let docs := extractOf filename
      if docs.isEmpty then documents else documents ++ docs)
    []

/-! ### Derived views used by the claims -/

/-- Constructor shorthand for chunk metadata records. -/
def mkChunk (src ft : Option String) (pg : Option Nat) (ht ocr : Option Bool)
    (st : Option Nat) : Chunk :=
  { source := src, page := pg, has_table := ht, used_ocr := ocr,
    file_type := ft, start := st }

/-- The sequence of chunk counters `<n>` inside the assigned ids. -/
def chunkCounters (l : List Chunk) : List Nat := (idPairs l).map Prod.snd

/-- The composite key `(source, file_type, page, has_table, used_ocr)` named
by the counter-reset claim, with the defaults `calculate_chunk_ids` reads. -/
def compositeKey (c : Chunk) : String × String × Nat × Bool × Bool :=
  (c.source.getD "UNKNOWN_SOURCE", c.file_type.getD "unknown", c.page.getD 0,
   c.has_table.getD false, c.used_ocr.getD false)

theorem chunkCounters_length (l : List Chunk) :
    (chunkCounters l).length = l.length := by
  simp [chunkCounters, idPairs, idPairsAux_length]

theorem get_map_snd (xs : List (String × Nat)) (i : Nat)
    (h : i < (xs.map Prod.snd).length) (h' : i < xs.length) :
    (xs.map Prod.snd).get ⟨i, h⟩ = (xs.get ⟨i, h'⟩).2 := by
  simp [List.get_eq_getElem, List.getElem_map]

theorem idPairsAux_consec : ∀ (l : List Chunk) (last : Option String) (idx i : Nat)
    (hi1 : i + 1 < l.length) (hi : i < l.length)
    (hc1 : i + 1 < (idPairsAux last idx l).length)
    (hc : i < (idPairsAux last idx l).length),
    ((idPairsAux last idx l).get ⟨i + 1, hc1⟩).2
      = if pageId (l.get ⟨i + 1, hi1⟩) = pageId (l.get ⟨i, hi⟩)
        then ((idPairsAux last idx l).get ⟨i, hc⟩).2 + 1 else 0 := by
  intro l
  induction l with
  | nil =>
    intro last idx i hi1
    simp at hi1
  | cons c rest ih =>
    intro last idx i hi1 hi hc1 hc
    cases i with
    | zero =>
      cases rest with
      | nil => simp at hi1
      | cons c₂ rest' =>
        simp [idPairsAux, Option.some.injEq, List.get_cons_zero, List.get_cons_succ]
    | succ i' =>
      have hi1' : i' + 1 < rest.length := by
        simp only [List.length_cons] at hi1; omega
      have hi' : i' < rest.length := by omega
      have hl1 : i' + 1 < (idPairsAux (some (pageId c))
          (if some (pageId c) = last then idx + 1 else 0) rest).length := by
        rw [idPairsAux_length]; exact hi1'
      have hl0 : i' < (idPairsAux (some (pageId c))
          (if some (pageId c) = last then idx + 1 else 0) rest).length := by
        rw [idPairsAux_length]; exact hi'
      have := ih (some (pageId c)) (if some (pageId c) = last then idx + 1 else 0)
        i' hi1' hi' hl1 hl0
      simp only [idPairsAux, List.get_cons_succ]
      exact this

/-! ### Claim C1 — ID uniqueness under the claimed sort precondition -/

def c1ex : List Chunk :=
  [mkChunk (some "a") (some "d") (some 0) (some false) (some true) (some 0),
   mkChunk (some "a") (some "d") (some 0) (some false) (some false) (some 1),
   mkChunk (some "a") (some "d") (some 0) (some false) (some true) (some 2)]

/-- C1: counterexample.  `c1ex` is sorted ascending by
`(source, page, has_table, start_offset)` and all its
`(source, page, has_table, used_ocr, start_offset)` tuples are distinct, yet
the assigned ids are not pairwise distinct (chunks 0 and 2 both receive
`"a:d:page_0_ocr:chunk_0"`): `used_ocr` is part of the page identity but not
of the sort key, so equal page identities need not be adjacent. -/
theorem c1_counterexample :
    SortedBySpecKey c1ex ∧ (c1ex.map idTuple).Nodup ∧
    ¬ (chunkIds c1ex).Nodup := by decide

/-- C1 (amended): for every input sequence in which chunks sharing the same
page-identity string `<source>:<file_type>:page_<page>[_table][_ocr]` occur
contiguously (`GroupedRuns`), the ids assigned by `calculate_chunk_ids` are
pairwise distinct. -/
theorem c1_unique_ids_of_grouped (l : List Chunk) (h : GroupedRuns l) :
    (chunkIds l).Nodup :=
  chunkIds_nodup_of_grouped l h

def c1w1 : Chunk := mkChunk (some "a.docx") (some "docx") (some 0) (some false) (some false) (some 0)
def c1w2 : Chunk := mkChunk (some "a.docx") (some "docx") (some 0) (some false) (some false) (some 500)
def c1w3 : Chunk := mkChunk (some "a.docx") (some "docx") (some 1) (some true) (some false) (some 0)

def c1wit : List Chunk := [c1w1, c1w2, c1w3]

/-- C1 witness: a concrete grouped input on which the amended theorem yields
distinct ids. -/
theorem c1_unique_ids_witness : GroupedRuns c1wit ∧ (chunkIds c1wit).Nodup := by
  have hg : GroupedRuns c1wit :=
    GroupedRuns.run c1w1 [c1w2] [c1w3] (by decide) (by decide)
      (GroupedRuns.run c1w3 [] [] (by decide) (by decide) GroupedRuns.nil)
  exact ⟨hg, c1_unique_ids_of_grouped c1wit hg⟩

/-! ### Claim C3 — the worked three-chunk example -/

def c3ex : List Chunk :=
  [mkChunk (some "a.docx") Option.none (some 0) (some false) Option.none Option.none,
   mkChunk (some "a.docx") Option.none (some 0) (some false) Option.none Option.none,
   mkChunk (some "a.docx") Option.none (some 1) (some true) Option.none Option.none]

/-- C3: counterexample.  With metadata exactly
`{source: "a.docx", page, has_table}` the `file_type` key is absent, so
`calculate_chunk_ids` falls back to `"unknown"`: the assigned ids are not the
claimed `a.docx:docx:…` ones. -/
theorem c3_counterexample :
    SortedBySpecKey c3ex ∧
    chunkIds c3ex ≠ ["a.docx:docx:page_0:chunk_0", "a.docx:docx:page_0:chunk_1",
      "a.docx:docx:page_1_table:chunk_0"] := by decide

/-- C3 (amended): on that pre-sorted input the assigned ids are
`a.docx:unknown:page_0:chunk_0`, `a.docx:unknown:page_0:chunk_1`,
`a.docx:unknown:page_1_table:chunk_0`, in that order. -/
theorem c3_assigned_ids :
    chunkIds c3ex = ["a.docx:unknown:page_0:chunk_0",
      "a.docx:unknown:page_0:chunk_1", "a.docx:unknown:page_1_table:chunk_0"] := by
  decide

/-! ### Claim C4 — when the chunk counter resets -/

def c4a : Chunk := mkChunk (some "a") (some "b:c") (some 0) (some false) (some false) (some 0)
def c4b : Chunk := mkChunk (some "a:b") (some "c") (some 0) (some false) (some false) (some 0)

/-- C4: counterexample.  `c4a` and `c4b` have different composite
`(source, file_type, page, has_table, used_ocr)` keys and the input is
sorted, yet the counter does not reset to 0 on the second chunk: the code
compares page-identity strings, and both keys render to `"a:b:c:page_0"`. -/
theorem c4_counterexample :
    SortedBySpecKey [c4a, c4b] ∧ compositeKey c4a ≠ compositeKey c4b ∧
    chunkCounters [c4a, c4b] = [0, 1] := by decide

/-- C4 (amended): for every sorted input, the chunk counter starts at 0 and
resets to 0 exactly when the page-identity string of the current chunk
differs from the previous chunk's, incrementing by 1 when it is unchanged. -/
theorem c4_counter_reset (l : List Chunk) (hs : SortedBySpecKey l) :
    (∀ (h0' : 0 < (chunkCounters l).length),
        (chunkCounters l).get ⟨0, h0'⟩ = 0) ∧
    ∀ (i : Nat) (hi1 : i + 1 < l.length) (hi : i < l.length)
      (hc1 : i + 1 < (chunkCounters l).length) (hc : i < (chunkCounters l).length),
      (chunkCounters l).get ⟨i + 1, hc1⟩
        = if pageId (l.get ⟨i + 1, hi1⟩) = pageId (l.get ⟨i, hi⟩)
          then (chunkCounters l).get ⟨i, hc⟩ + 1 else 0 := by
  constructor
  · intro h0'
    cases l with
    | nil => simp [chunkCounters, idPairs, idPairsAux] at h0'
    | cons c rest =>
      simp [chunkCounters, idPairs, idPairsAux]
  · intro i hi1 hi hc1 hc
    have hl1 : i + 1 < (idPairsAux Option.none 0 l).length := by
      rw [idPairsAux_length]; exact hi1
    have hl0 : i < (idPairsAux Option.none 0 l).length := by
      rw [idPairsAux_length]; exact hi
    have hmain := idPairsAux_consec l Option.none 0 i hi1 hi hl1 hl0
    simp only [chunkCounters, idPairs]
    rw [get_map_snd _ _ _ hl1, get_map_snd _ _ _ hl0]
    exact hmain

def c4w1 : Chunk := mkChunk (some "b.docx") (some "docx") (some 2) (some false) (some false) (some 0)
def c4w2 : Chunk := mkChunk (some "b.docx") (some "docx") (some 2) (some false) (some false) (some 900)

def c4wit : List Chunk := [c4w1, c4w2]

/-- C4 witness: on a concrete sorted two-chunk input the amended theorem
evaluates — the counter starts at 0 and increments on the unchanged page
identity. -/
theorem c4_counter_reset_witness :
    SortedBySpecKey c4wit ∧
    (chunkCounters c4wit).get ⟨0, by decide⟩ = 0 ∧
    (chunkCounters c4wit).get ⟨1, by decide⟩
      = if pageId (c4wit.get ⟨1, by decide⟩) = pageId (c4wit.get ⟨0, by decide⟩)
        then (chunkCounters c4wit).get ⟨0, by decide⟩ + 1 else 0 := by
  have hs : SortedBySpecKey c4wit := by decide
  obtain ⟨h0, hsucc⟩ := c4_counter_reset c4wit hs
  exact ⟨hs, h0 (by decide),
    hsucc 0 (by decide) (by decide) (by decide) (by decide)⟩

/-! ### Claim C2 — idempotence of the store writer -/

/-- C2: running `save_to_chroma` a second time on an identical chunk set,
against the index persisted by the first run: every assigned id is found in
the existing ID set, the computed new-chunk subset is empty, no insert call
is made (second component `none`), and the index is returned unchanged. -/
theorem save_to_chroma_idempotent (chunks : List Chunk) :
    (∀ p ∈ calculate_chunk_ids (sortChunks chunks),
        p.2 ∈ ((save_to_chroma Option.none chunks).1).ids) ∧
    (calculate_chunk_ids (sortChunks chunks)).filter
        (fun p => !(((save_to_chroma Option.none chunks).1).ids.contains p.2)) = [] ∧
    save_to_chroma (some (save_to_chroma Option.none chunks).1) chunks
      = ((save_to_chroma Option.none chunks).1, Option.none) := by
  have hids : ((save_to_chroma Option.none chunks).1).ids
      = (calculate_chunk_ids (sortChunks chunks)).map Prod.snd := rfl
  have hmem : ∀ p ∈ calculate_chunk_ids (sortChunks chunks),
      p.2 ∈ ((save_to_chroma Option.none chunks).1).ids := by
    intro p hp
    rw [hids]
    exact List.mem_map_of_mem Prod.snd hp
  have hfil : (calculate_chunk_ids (sortChunks chunks)).filter
      (fun p => !(((save_to_chroma Option.none chunks).1).ids.contains p.2)) = [] := by
    apply List.filter_eq_nil_iff.mpr
    intro p hp
    simp [hmem p hp]
  refine ⟨hmem, hfil, ?_⟩
  generalize hdb : (save_to_chroma Option.none chunks).1 = db₁ at hfil ⊢
  simp only [save_to_chroma]
  rw [hfil]
  rfl

/-! ### Claim C9 — permutation invariance of the assigned ID multiset -/

def c9x : Chunk := mkChunk (some "s") (some "f") (some 0) (some false) (some false) (some 0)
def c9y : Chunk := mkChunk (some "s") (some "f") (some 0) (some false) (some true) (some 0)

def c9l1 : List Chunk := [c9x, c9y, c9x]
def c9l2 : List Chunk := [c9x, c9x, c9y]

/-- C9: counterexample.  The two lists are permutations of each other, all
pages and starts are integers and all sources are comparable strings, yet the
multisets of assigned ids differ: the stable sort leaves tied chunks in input
order, and with ties the id counters depend on that order
(`[P:0, Q:0, P:0]` versus `[P:0, P:1, Q:0]`). -/
theorem c9_counterexample :
    c9l1.Perm c9l2 ∧ ¬ (assignedIds c9l1).Perm (assignedIds c9l2) := by decide

/-- C9 (amended): when every chunk of the input has a distinct sort key
`(source, int(page), bool(has_table), int(start))` (and sources are mutually
comparable), the multiset of ids `save_to_chroma` assigns is invariant under
permutation of its input. -/
theorem assignedIds_perm_invariant (l₁ l₂ : List Chunk) (hperm : l₁.Perm l₂)
    (hnd : (l₁.map chunkSortKey).Nodup)
    (_hcmp : (∀ c ∈ l₁, c.source ≠ Option.none) ∨ (∀ c ∈ l₁, c.source = Option.none)) :
    (assignedIds l₁).Perm (assignedIds l₂) := by
  have hsorteq : sortChunks l₁ = sortChunks l₂ := by
    apply sorted_perm_eq_of_nodup_keys
    · exact (sortChunks_perm l₁).trans (hperm.trans (sortChunks_perm l₂).symm)
    · exact sortChunks_sorted l₁
    · exact sortChunks_sorted l₂
    · exact (List.Perm.nodup_iff ((sortChunks_perm l₁).map chunkSortKey)).mpr hnd
  have heq : assignedIds l₁ = assignedIds l₂ := by
    have h₁ : assignedIds l₁
        = (calculate_chunk_ids (sortChunks l₁)).map Prod.snd := rfl
    have h₂ : assignedIds l₂
        = (calculate_chunk_ids (sortChunks l₂)).map Prod.snd := rfl
    rw [h₁, h₂, hsorteq]
  rw [heq]

def c9w1 : Chunk := mkChunk (some "s") (some "f") (some 0) (some false) (some false) (some 0)
def c9w2 : Chunk := mkChunk (some "t") (some "f") (some 0) (some false) (some false) (some 0)

/-- C9 witness: two concrete permuted lists with distinct sort keys receive
the same multiset of ids. -/
theorem assignedIds_perm_invariant_witness :
    ([c9w1, c9w2].Perm [c9w2, c9w1]) ∧
    (([c9w1, c9w2].map chunkSortKey).Nodup) ∧
    ((∀ c ∈ [c9w1, c9w2], c.source ≠ Option.none) ∨
      (∀ c ∈ [c9w1, c9w2], c.source = Option.none)) ∧
    (assignedIds [c9w1, c9w2]).Perm (assignedIds [c9w2, c9w1]) := by
  refine ⟨by decide, by decide, Or.inl (by decide), ?_⟩
  exact assignedIds_perm_invariant [c9w1, c9w2] [c9w2, c9w1]
    (by decide) (by decide) (Or.inl (by decide))

/-! ### Claim C5 — shape of the markdown table output -/

/-- C5: for every table with at least two rows (a header and a nonempty list
of data rows), `table_to_markdown` is the newline-join of one header line,
one separator line of dashes, and one line per data row; every data line
renders exactly `headers.length` cells, obtained by padding short rows with
empty cells and truncating long rows. -/
theorem table_to_markdown_shape (headers : List Cell) (rows : List (List Cell))
    (hrows : rows ≠ []) :
    table_to_markdown (headers :: rows)
      = String.intercalate "\n"
          (renderRow headers :: separatorRow headers.length
            :: rows.map (fun row => renderRow (paddedRow headers row)))
    ∧ (rows.map (fun row => renderRow (paddedRow headers row))).length = rows.length
    ∧ ∀ row ∈ rows, (paddedRow headers row).length = headers.length := by
  refine ⟨?_, List.length_map rows _, ?_⟩
  · have : rows.isEmpty = false := by
      cases rows with
      | nil => exact absurd rfl hrows
      | cons r rs => rfl
    simp [table_to_markdown, this]
  · intro row _
    simp only [paddedRow, List.length_take, List.length_append, List.length_replicate]
    omega

def c5headers : List Cell := [Cell.str "h1", Cell.str "h2"]
def c5rows : List (List Cell) := [[Cell.str "a"], [Cell.str "b", Cell.str "c", Cell.str "d"]]

/-- C5 witness: the shape theorem evaluated on a concrete table with one
short and one long data row. -/
theorem table_to_markdown_shape_witness :
    c5rows ≠ [] ∧
    (table_to_markdown (c5headers :: c5rows)
        = String.intercalate "\n"
            (renderRow c5headers :: separatorRow c5headers.length
              :: c5rows.map (fun row => renderRow (paddedRow c5headers row)))
      ∧ (c5rows.map (fun row => renderRow (paddedRow c5headers row))).length
          = c5rows.length
      ∧ ∀ row ∈ c5rows, (paddedRow c5headers row).length = c5headers.length) :=
  ⟨by decide, table_to_markdown_shape c5headers c5rows (by decide)⟩

/-! ### Claim C6 — tables with fewer than two rows are dropped -/

theorem flushText_table_countP (s : ExtractState) :
    ((flushText s).content_parts.countP (fun p => p.type == "table"))
      = s.content_parts.countP (fun p => p.type == "table") := by
  unfold flushText
  split_ifs <;> simp [List.countP_append, List.countP_cons]

/-- C6: for every table with fewer than two rows (the empty table included),
`table_to_markdown` returns `""`, `extract_docx_table` returns `""`, and the
extractor's table step degenerates to the plain text flush: no table section
is emitted and the number of table parts is unchanged. -/
theorem small_table_dropped (cells : List (List Cell)) (tbl : List (List String))
    (s : ExtractState) (hc : cells.length < 2) (ht : tbl.length < 2) :
    table_to_markdown cells = "" ∧ extract_docx_table tbl = "" ∧
    stepElement s (DocxElement.tbl tbl) = flushText s ∧
    ((stepElement s (DocxElement.tbl tbl)).content_parts.countP
        (fun p => p.type == "table"))
      = s.content_parts.countP (fun p => p.type == "table") := by
  have htm : ∀ (cs : List (List Cell)), cs.length < 2 → table_to_markdown cs = "" := by
    intro cs hcs
    match cs, hcs with
    | [], _ => rfl
    | [h], _ => rfl
  have hedt : extract_docx_table tbl = "" := by
    unfold extract_docx_table
    rw [if_neg]
    simp only [List.length_map]
    omega
  have hstep : stepElement s (DocxElement.tbl tbl) = flushText s := by
    unfold stepElement
    simp [hedt]
  refine ⟨htm cells hc, hedt, hstep, ?_⟩
  rw [hstep, flushText_table_countP]

/-- C6 witness: a one-row table in a state with pending text. -/
theorem small_table_dropped_witness :
    (([[Cell.str "x"]] : List (List Cell)).length < 2) ∧
    (([["y"]] : List (List String)).length < 2) ∧
    (table_to_markdown [[Cell.str "x"]] = "" ∧ extract_docx_table [["y"]] = "" ∧
      stepElement ⟨[⟨"text", "t", 0⟩], ["pending"], 1, 0⟩ (DocxElement.tbl [["y"]])
        = flushText ⟨[⟨"text", "t", 0⟩], ["pending"], 1, 0⟩ ∧
      ((stepElement ⟨[⟨"text", "t", 0⟩], ["pending"], 1, 0⟩
          (DocxElement.tbl [["y"]])).content_parts.countP
            (fun p => p.type == "table"))
        = (⟨[⟨"text", "t", 0⟩], ["pending"], 1, 0⟩ : ExtractState).content_parts.countP
            (fun p => p.type == "table")) :=
  ⟨by decide, by decide,
    small_table_dropped [[Cell.str "x"]] [["y"]]
      ⟨[⟨"text", "t", 0⟩], ["pending"], 1, 0⟩ (by decide) (by decide)⟩

/-! ### Claim C7 — the metadata normalizer -/

/-- C7: for every input mapping, `clean_metadata` yields a mapping whose keys
all lie in the allowed key set; a key present with a value of allowed
primitive type is kept with its value unchanged, a present value of any other
type is stored as its string form, and a key absent from the input (or not in
the allowed set) is absent from the output.  The function is total — there is
no error path. -/
theorem clean_metadata_spec (metadata : String → Option PyValue) :
    (∀ k v, (k, v) ∈ clean_metadata metadata → k ∈ keep_keys) ∧
    (∀ k, k ∈ keep_keys →
        (clean_metadata metadata).lookup k
          = (metadata k).map (fun v =>
              if isAllowedType v then v else PyValue.str (pyStrOf v))) ∧
    (∀ k, metadata k = Option.none →
        (clean_metadata metadata).lookup k = Option.none) := by
  have hchar := clean_metadata_eq_filterMap metadata
  have hlookup := lookup_filterMap_keyed (fun key => (metadata key).bind cleanedVal)
    keep_keys keep_keys_nodup
  have hclean : ∀ v, cleanedVal v
      = some (if isAllowedType v then v else PyValue.str (pyStrOf v)) := by
    intro v
    by_cases hall : isAllowedType v
    · simp [cleanedVal, hall]
    · have hne : v ≠ PyValue.none :=
        isAllowedType_false_ne_none (Bool.eq_false_iff.mpr hall)
      simp [cleanedVal, hall, hne]
  refine ⟨?_, ?_, ?_⟩
  · intro k v hmem
    rw [hchar] at hmem
    obtain ⟨key, hkey, hf⟩ := List.mem_filterMap.mp hmem
    obtain ⟨w, _, hpair⟩ := Option.map_eq_some'.mp hf
    obtain ⟨hk, -⟩ := Prod.mk.injEq _ _ _ _ ▸ hpair
    rw [← hk]
    exact hkey
  · intro k hk
    rw [hchar, hlookup k, if_pos hk]
    show (metadata k).bind cleanedVal
      = (metadata k).map (fun v =>
          if isAllowedType v then v else PyValue.str (pyStrOf v))
    cases hmk : metadata k with
    | none => rfl
    | some v =>
      show cleanedVal v = _
      rw [hclean v]
      rfl
  · intro k hk
    rw [hchar, hlookup k]
    by_cases hkk : k ∈ keep_keys
    · rw [if_pos hkk]
      show (metadata k).bind cleanedVal = Option.none
      rw [hk]
      rfl
    · rw [if_neg hkk]

def c7meta : String → Option PyValue := fun k =>
  if k = "page" then some (PyValue.other "[1, 2]")
  else if k = "source" then some (PyValue.str "a.docx")
  else Option.none

/-- C7 witness: the normalizer theorem evaluated at a mapping holding a
primitive and a non-primitive value. -/
theorem clean_metadata_spec_witness :
    ("page" ∈ keep_keys) ∧
    (clean_metadata c7meta).lookup "page"
      = (c7meta "page").map (fun v =>
          if isAllowedType v then v else PyValue.str (pyStrOf v)) ∧
    (clean_metadata c7meta).lookup "id" = Option.none :=
  ⟨by decide, (clean_metadata_spec c7meta).2.1 "page" (by decide),
    (clean_metadata_spec c7meta).2.2 "id" (by decide)⟩

/-! ### Claim C8 — extraction failures are contained per document -/

theorem load_document_skip (extractOf : String → List SectionDoc)
    (name : String) (hname : extractOf name = [])
    (pre post : List String) :
    load_document extractOf (pre ++ name :: post)
      = load_document extractOf (pre ++ post) := by
  unfold load_document
  rw [List.foldl_append, List.foldl_append, List.foldl_cons]
  congr 1
  simp [hname]

/-- C8: when parsing a document fails (`parseOf name = none`, the `except`
path), `extract_content_from_docx` returns the empty list instead of
propagating the error, and `load_document` over any file sequence containing
that file produces exactly what it produces without the file: the file is
skipped and the remaining files are still processed. -/
theorem extract_failure_skipped (parseOf : String → Option (List DocxElement))
    (name : String) (pre post : List String)
    (h : parseOf name = Option.none) :
    extract_content_from_docx (parseOf name) name = [] ∧
    load_document (fun f => extract_content_from_docx (parseOf f) f)
        (pre ++ name :: post)
      = load_document (fun f => extract_content_from_docx (parseOf f) f)
          (pre ++ post) := by
  have h1 : extract_content_from_docx (parseOf name) name = [] := by
    rw [h]
    rfl
  exact ⟨h1, load_document_skip
    (fun f => extract_content_from_docx (parseOf f) f) name h1 pre post⟩

def c8parse : String → Option (List DocxElement) := fun f =>
  if f = "bad.docx" then Option.none else some [DocxElement.para "hello"]

/-- C8 witness: a failing file between two good files is skipped. -/
theorem extract_failure_skipped_witness :
    c8parse "bad.docx" = Option.none ∧
    (extract_content_from_docx (c8parse "bad.docx") "bad.docx" = [] ∧
      load_document (fun f => extract_content_from_docx (c8parse f) f)
          (["a.docx"] ++ "bad.docx" :: ["b.docx"])
        = load_document (fun f => extract_content_from_docx (c8parse f) f)
            (["a.docx"] ++ ["b.docx"])) :=
  ⟨rfl, extract_failure_skipped c8parse "bad.docx" ["a.docx"] ["b.docx"] rfl⟩

/-! ### Claim C10 — falsy cells render as the empty string -/

def c10table : List (List Cell) :=
  [[Cell.int 0, Cell.str "h"], [Cell.str "a", Cell.int 0]]

/-- C10: every falsy cell (empty string, integer 0, `False`, `None`) renders
as the empty string rather than its string form — this governs header and
data rows alike — and on the concrete table `c10table`, which holds the
integer 0 in the header and in a data row, the markdown output contains no
`'0'` character at all. -/
theorem falsy_cells_render_empty :
    (∀ c : Cell, cellTruthy c = false → renderCell c = "") ∧
    Cell.int 0 ∈ c10table.flatten ∧
    '0' ∉ (table_to_markdown c10table).data := by
  refine ⟨?_, by decide, by decide⟩
  intro c hc
  simp [renderCell, hc]

/-- C10 witness: the falsy-cell rule applied to the integer 0. -/
theorem falsy_cells_render_empty_witness :
    cellTruthy (Cell.int 0) = false ∧ renderCell (Cell.int 0) = "" :=
  ⟨by decide, falsy_cells_render_empty.1 (Cell.int 0) (by decide)⟩

end RagPipeline
